import Mathlib

/-!
Verification development for the pytroll config-finder repository
(src/config-finder/__init__.py).

The embedding models Python dictionaries as insertion-ordered association
lists: assigning to an existing key updates the value in place, assigning a
fresh key appends it at the end, exactly as CPython dictionaries behave.
Python exceptions are modelled by `Option`: a function that can raise
returns `none` on the raising executions.
-/

set_option autoImplicit false

namespace ConfigFinderSpec

/-- A Python value as it appears in parsed configuration data: an integer
scalar, a string scalar, or a dictionary (mapping) from string keys to
values.  `Val.map` corresponds to values for which the source test
`isinstance(v, Mapping)` is true; the scalars are the non-Mapping values. -/
inductive Val where
  | int : Int → Val
  | str : String → Val
  | map : List (String × Val) → Val

/-- Python `d.get(k)` / `d[k]` lookup on a dictionary: the value bound to `k`,
or `none` when the key is absent.  (A CPython dict holds each key at most
once; on general association lists this returns the first binding.) -/
def dget {α : Type} : List (String × α) → String → Option α
  | [], _ => none
  | (k1, v) :: t, k => if k1 = k then some v else dget t k

/-- Python `d[k] = v` assignment: update the binding in place when `k` is
present, append `(k, v)` at the end when it is absent. -/
def dset {α : Type} : List (String × α) → String → α → List (String × α)
  | [], k, v => [(k, v)]
  | (k1, w) :: t, k, v => if k1 = k then (k1, v) :: t else (k1, w) :: dset t k v

/-- Python `d.pop(k, None)`: remove the binding of `k` (the first one, on a
general association list); no error when absent. -/
def dpop {α : Type} : List (String × α) → String → List (String × α)
  | [], _ => []
  | (k1, w) :: t, k => if k1 = k then t else (k1, w) :: dpop t k

/-- Python `d.get(k, {})`: lookup with the empty dictionary as default. -/
def dgetD (m : List (String × Val)) (k : String) : Val :=
  (dget m k).getD (Val.map [])

/-- `recursive_dict_update(d, u)` from the source.  It iterates over the
items of `u`; when the overlay value `v` is a `Mapping` it recursively
updates `d.get(k, {})` with `v` and stores the result at `k`, otherwise it
stores `v` at `k` directly.  When `d` is not a dictionary and `u` has at
least one item, the first loop iteration raises (`d.get` / `d[k] = ...` on a
non-dict), which is the `none` result; with an empty `u` the loop body never
runs and `d` is returned unchanged, whatever its type. -/
def recursive_dict_update : Val → List (String × Val) → Option Val
  | d, [] => some d
  | Val.map m, (k, Val.map vm) :: rest =>
    match recursive_dict_update (dgetD m k) vm with
    | some r => recursive_dict_update (Val.map (dset m k r)) rest
    | none => none
  | Val.map m, (k, Val.int n) :: rest =>
    recursive_dict_update (Val.map (dset m k (Val.int n))) rest
  | Val.map m, (k, Val.str s) :: rest =>
    recursive_dict_update (Val.map (dset m k (Val.str s))) rest
  | Val.int _, _ :: _ => none
  | Val.str _, _ :: _ => none
termination_by _ u => sizeOf u
decreasing_by all_goals simp_wf <;> omega

/-- Python `s.startswith(pre)`, computed on the character lists so that it
evaluates by kernel reduction. -/
def pyStartswith (s pre : String) : Bool :=
  pre.data.isPrefixOf s.data

/-- Python `s.endswith(suf)`, computed on the character lists. -/
def pyEndswith (s suf : String) : Bool :=
  suf.data.isSuffixOf s.data

/-- `os.path.join(a, b)` for POSIX paths, as used by `config_search_paths`:
an absolute second component replaces the first, an empty or slash-terminated
first component is concatenated directly, otherwise a slash is inserted. -/
def osPathJoin (a b : String) : String :=
  if pyStartswith b "/" then b
  else if a = "" ∨ pyEndswith a "/" then a ++ b
  else a ++ "/" ++ b

/-- `config_search_paths(filename, *search_dirs, **kwargs)` from the source.
`search_dirs` entries may be Python `None` (skipped by the comprehension),
hence `Option String`.  The filesystem is abstracted by the predicate
`isfile` standing for `os.path.isfile`; `check_exists` is the value of
`kwargs.get("check_exists", True)`. -/
def config_search_paths (filename : String) (search_dirs : List (Option String))
    (isfile : String → Bool) (check_exists : Bool) : List String :=
  let paths := (search_dirs.filterMap id).map (fun d => osPathJoin d filename)
  if check_exists then paths.filter isfile else paths

/-- Index of the last occurrence of `c` in `l`, or `-1` when absent: Python
`str.rfind` restricted to a single character, used by `os.path.splitext`. -/
def rfindIdx (c : Char) : List Char → Int
  | [] => -1
  | x :: xs =>
    let r := rfindIdx c xs
    if r ≥ 0 then r + 1 else if x = c then 0 else -1

/-- `os.path.splitext` on the character list of a POSIX path: split at the
last dot when it lies after the last slash and the basename has at least one
non-dot character before it (so names made only of leading dots, such as
`.cshrc`, have no extension). -/
def splitextList (p : List Char) : List Char × List Char :=
  let sepIndex := rfindIdx '/' p
  let dotIndex := rfindIdx '.' p
  if sepIndex < dotIndex then
    let fIdx := (sepIndex + 1).toNat
    let dIdx := dotIndex.toNat
    if ((p.drop fIdx).take (dIdx - fIdx)).all (fun c => c = '.') then (p, [])
    else (p.take dIdx, p.drop dIdx)
  else (p, [])

/-- `os.path.splitext` on strings; the extension of `filename` used by
`ConfigFinder.__call__` is the second component. -/
def splitext (p : String) : String × String :=
  let r := splitextList p.data
  (String.mk r.1, String.mk r.2)

/-- Content of one INI file as the underlying parser ingests it: the list of
sections in file order, each with its options in file order.  The line-level
parsing (and key lowercasing by `optionxform`) is the black-box collaborator;
this is its output.  A `DEFAULT` section carries the default options. -/
abbrev IniFile : Type := List (String × List (String × String))

/-- `MyParser` state, i.e. the relevant state of the underlying
`configparser.ConfigParser`: the defaults dictionary (from `DEFAULT`
sections) and the section dictionaries.  Each freshly created section
dictionary starts with the internal bookkeeping binding
`__name__ -> section name`. -/
structure MyParser where
  _defaults : List (String × String)
  _sections : List (String × List (String × String))

/-- `dict(base, **upd)` and the option-update loop of the parser: fold plain
dictionary assignment of every binding of `upd` over `base`. -/
def dictUpdate {α : Type} (base upd : List (String × α)) : List (String × α) :=
  upd.foldl (fun acc kv => dset acc kv.1 kv.2) base

/-- Reading one section from a file into the parser state: options of a
`DEFAULT` section update the defaults; otherwise an existing section
dictionary is updated in place (this is how a later file overrides an
earlier one per key), and a missing section is created with its `__name__`
bookkeeping binding followed by the options. -/
def readIniSection (st : MyParser) (sect : String) (opts : List (String × String)) :
    MyParser :=
  if sect = "DEFAULT" then
    { st with _defaults := dictUpdate st._defaults opts }
  else
    match dget st._sections sect with
    | some cur => { st with _sections := dset st._sections sect (dictUpdate cur opts) }
    | none =>
      { st with
        _sections := st._sections ++ [(sect, dictUpdate [("__name__", sect)] opts)] }

/-- `cfg.read(config_file)`: parse one file into the same accumulating
parser state, section by section. -/
def MyParser.read (st : MyParser) (f : IniFile) : MyParser :=
  f.foldl (fun st s => readIniSection st s.1 s.2) st

/-- `MyParser.as_dict` from the source: for every section, a fresh
`dict(self._defaults, **section)` (defaults first, overridden by the local
options) with the internal `__name__` binding popped. -/
def MyParser.as_dict (p : MyParser) : List (String × List (String × String)) :=
  p._sections.map (fun s => (s.1, dpop (dictUpdate p._defaults s.2) "__name__"))

/-- The filesystem and the two black-box file parsers, abstracted:
`isfile` is `os.path.isfile`; `yamlLoad p` is the value `yaml.load` returns
for the file at `p` (`none` models Python `None`, the parse of an empty
file); `iniRead p` is the parsed section structure the INI parser reads from
the file at `p`. -/
structure FileSystem where
  isfile : String → Bool
  yamlLoad : String → Option Val
  iniRead : String → IniFile

/-- What `ConfigFinder.__call__` returns when it returns: the flattened INI
dictionary, the merged YAML dictionary, or Python `None` (the implicit
return on an unrecognized extension). -/
inductive CallResult where
  | iniResult : List (String × List (String × String)) → CallResult
  | yamlResult : Val → CallResult
  | pyNone : CallResult

/-- The YAML loop of `ConfigFinder.__call__`:
`cfg = recursive_dict_update(cfg, yaml.load(fd_))` over the candidate files
in order.  When `yaml.load` returned Python `None` (empty file) or any
non-mapping value, `u.items()` inside `recursive_dict_update` raises, which
is the `none` outcome. -/
def yamlFold : Val → List (Option Val) → Option Val
  | cfg, [] => some cfg
  | cfg, f :: rest =>
    match f with
    | some (Val.map m) =>
      match recursive_dict_update cfg m with
      | some cfg2 => yamlFold cfg2 rest
      | none => none
    | _ => none

/-- The `ConfigFinder` object: the search directories given at construction
(config files in earlier paths are overridden by those in later paths). -/
structure ConfigFinder where
  paths : List (Option String)

/-- `ConfigFinder.__call__(filename)` from the source: find the existing
candidate files, dispatch on the filename extension, and either accumulate
all candidates into one parser and flatten it (`.cfg`/`.ini`), deep-merge
the parsed candidates in order starting from the empty dictionary
(`.yaml`/`.yml`), or fall through returning Python `None`.  The outer
`Option` is `none` exactly when the call raises. -/
def ConfigFinder.call (self : ConfigFinder) (fs : FileSystem) (filename : String) :
    Option CallResult :=
  let config_files := config_search_paths filename self.paths fs.isfile true
  let ext := (splitext filename).2
  if ext = ".cfg" ∨ ext = ".ini" then
    let cfg : MyParser :=
      config_files.foldl (fun st f => st.read (fs.iniRead f)) ⟨[], []⟩
    some (CallResult.iniResult cfg.as_dict)
  else if ext = ".yaml" ∨ ext = ".yml" then
    (yamlFold (Val.map []) (config_files.map fs.yamlLoad)).map CallResult.yamlResult
  else
    some CallResult.pyNone

/-- Whether a value is a `Mapping` in the sense of the source's
`isinstance(v, Mapping)` test. -/
def Val.isMap : Val → Bool
  | Val.map _ => true
  | _ => false

/-- Dictionary-level restatement of `recursive_dict_update` when the base is
a dictionary, used for the proofs; `rdu_eq_drdu` below ties it to the source
function.  The branches mirror the source exactly: a mapping overlay value
recursively updates `d.get(k, x7b x7d)` (which is the existing value when
the key is present, of whatever type, and the empty dictionary otherwise),
anything else is assigned directly. -/
def drdu : List (String × Val) → List (String × Val) → Option (List (String × Val))
  | m, [] => some m
  | m, (k, Val.map vm) :: rest =>
    match dgetD m k with
    | Val.map m0 =>
      match drdu m0 vm with
      | some r => drdu (dset m k (Val.map r)) rest
      | none => none
    | Val.int n => if vm.isEmpty then drdu (dset m k (Val.int n)) rest else none
    | Val.str s => if vm.isEmpty then drdu (dset m k (Val.str s)) rest else none
  | m, (k, Val.int n) :: rest => drdu (dset m k (Val.int n)) rest
  | m, (k, Val.str s) :: rest => drdu (dset m k (Val.str s)) rest
termination_by _ u => sizeOf u
decreasing_by all_goals simp_wf <;> omega

/-- The inner call of `recursive_dict_update` for one mapping-valued overlay
item: merge the overlay dictionary `vm` into the base value `d` found at the
key.  A non-mapping base value survives exactly when `vm` is empty (the
loop body never runs); a mapping base value is updated recursively. -/
def stepVal (d : Val) (vm : List (String × Val)) : Option Val :=
  match d with
  | Val.map m0 => (drdu m0 vm).map Val.map
  | w => if vm.isEmpty then some w else none

/-- The value stored at a key by one loop iteration of
`recursive_dict_update`: the overlay value itself when it is not a mapping,
otherwise the recursive merge `stepVal`. -/
def stepItem (d : Val) (v : Val) : Option Val :=
  match v with
  | Val.map vm => stepVal d vm
  | w => some w

/-- Keys of a dictionary are pairwise distinct (what holds of every real
Python dictionary). -/
def nodupKeys {α : Type} : List (String × α) → Bool
  | [] => true
  | (k, _) :: t => (dget t k).isNone && nodupKeys t

mutual
/-- A value is well formed when every dictionary nested in it has pairwise
distinct keys, as is true of everything produced by a Python parser. -/
def wfVal : Val → Bool
  | Val.int _ => true
  | Val.str _ => true
  | Val.map m => nodupKeys m && wfEntries m
termination_by v => sizeOf v
decreasing_by all_goals simp_wf

/-- All values of a dictionary are well formed. -/
def wfEntries : List (String × Val) → Bool
  | [] => true
  | (_, v) :: t => wfVal v && wfEntries t
termination_by l => sizeOf l
decreasing_by all_goals simp_wf <;> omega
end

/-- A well-formed dictionary: distinct keys, well-formed values. -/
def dictWF (m : List (String × Val)) : Bool :=
  nodupKeys m && wfEntries m

/-- The value of the last binding of `k` in an association list; on a
duplicate-free list this coincides with `dget`.  It describes the outcome of
folding plain assignment over the list (`dictUpdate`). -/
def dlast {α : Type} : List (String × α) → String → Option α
  | [], _ => none
  | (k1, v) :: t, k =>
    match dlast t k with
    | some w => some w
    | none => if k1 = k then some v else none

example : splitext "conf.yaml" = ("conf", ".yaml") := by decide
example : splitext "/tmp/conf.ini" = ("/tmp/conf", ".ini") := by decide
example : splitext ".cshrc" = (".cshrc", "") := by decide
example : osPathJoin "/tmp" "conf.cfg" = "/tmp/conf.cfg" := by decide
example : osPathJoin "." "conf.cfg" = "./conf.cfg" := by decide

/-! ## Basic dictionary lemmas -/

section DictLemmas

variable {α : Type}

theorem dget_dset_self (m : List (String × α)) (k : String) (v : α) :
    dget (dset m k v) k = some v := by
  induction m with
  | nil => simp [dget, dset]
  | cons h t ih =>
    obtain ⟨k1, w⟩ := h
    by_cases hk : k1 = k <;> simp [dget, dset, hk, ih]

theorem dget_dset_ne (m : List (String × α)) {k k1 : String} (h : k1 ≠ k) (v : α) :
    dget (dset m k1 v) k = dget m k := by
  induction m with
  | nil => simp [dget, dset, h]
  | cons hd t ih =>
    obtain ⟨k2, w⟩ := hd
    by_cases hk : k2 = k1
    · subst hk
      simp [dget, dset, h]
    · simp [dget, dset, hk, ih]

theorem dset_of_dget (m : List (String × α)) {k : String} {v : α}
    (h : dget m k = some v) : dset m k v = m := by
  induction m with
  | nil => simp [dget] at h
  | cons hd t ih =>
    obtain ⟨k1, w⟩ := hd
    by_cases hk : k1 = k
    · subst hk
      simp [dget] at h
      simp [dset, h]
    · simp [dget, hk] at h
      simp [dset, hk, ih h]

theorem dset_of_dget_none (m : List (String × α)) {k : String}
    (h : dget m k = none) (v : α) : dset m k v = m ++ [(k, v)] := by
  induction m with
  | nil => simp [dset]
  | cons hd t ih =>
    obtain ⟨k1, w⟩ := hd
    by_cases hk : k1 = k
    · subst hk
      simp [dget] at h
    · simp [dget, hk] at h
      simp [dset, hk, ih h]

theorem dget_append (p q : List (String × α)) (k : String) :
    dget (p ++ q) k =
      match dget p k with
      | some v => some v
      | none => dget q k := by
  induction p with
  | nil => simp [dget]
  | cons hd t ih =>
    obtain ⟨k1, w⟩ := hd
    by_cases hk : k1 = k <;> simp [dget, hk, ih]

theorem dget_middle (p q : List (String × α)) {k : String}
    (hp : dget p k = none) (a : α) : dget (p ++ (k, a) :: q) k = some a := by
  rw [dget_append, hp]
  simp [dget]

theorem dset_middle (p q : List (String × α)) {k : String}
    (hp : dget p k = none) (a v : α) :
    dset (p ++ (k, a) :: q) k v = p ++ (k, v) :: q := by
  induction p with
  | nil => simp [dset]
  | cons hd t ih =>
    obtain ⟨k1, w⟩ := hd
    by_cases hk : k1 = k
    · subst hk
      simp [dget] at hp
    · simp [dget, hk] at hp
      simp [dset, hk, ih hp]

theorem dset_append_left (p x : List (String × α)) {k : String}
    (h : (dget p k).isSome) (w : α) :
    dset (p ++ x) k w = dset p k w ++ x := by
  induction p with
  | nil => simp [dget] at h
  | cons hd t ih =>
    obtain ⟨k1, v1⟩ := hd
    by_cases hk : k1 = k
    · simp [dset, hk]
    · simp [dget, hk] at h
      simp [dset, hk, ih h]

theorem dset_append_right (p x : List (String × α)) {k : String}
    (h : dget p k = none) (w : α) :
    dset (p ++ x) k w = p ++ dset x k w := by
  induction p with
  | nil => simp
  | cons hd t ih =>
    obtain ⟨k1, v1⟩ := hd
    by_cases hk : k1 = k
    · subst hk
      simp [dget] at h
    · simp [dget, hk] at h
      simp [dset, hk, ih h]

theorem dget_mid_ne (p q : List (String × α)) {k k2 : String} (h : k2 ≠ k)
    (a b : α) :
    dget (p ++ (k, a) :: q) k2 = dget (p ++ (k, b) :: q) k2 := by
  rw [dget_append, dget_append]
  cases dget p k2 <;> simp [dget, Ne.symm h]

theorem dset_split_of_get (m : List (String × α)) {k : String} {w : α}
    (h : dget m k = some w) :
    ∃ p q, dget p k = none ∧ m = p ++ (k, w) :: q ∧
      ∀ v, dset m k v = p ++ (k, v) :: q := by
  induction m with
  | nil => simp [dget] at h
  | cons hd t ih =>
    obtain ⟨k1, v1⟩ := hd
    by_cases hk : k1 = k
    · subst hk
      simp [dget] at h
      subst h
      exact ⟨[], t, by simp [dget], by simp, fun v => by simp [dset]⟩
    · simp [dget, hk] at h
      obtain ⟨p, q, hp, hm, hs⟩ := ih h
      refine ⟨(k1, v1) :: p, q, by simp [dget, hk, hp], by simp [hm], fun v => ?_⟩
      simp [dset, hk, hs v]

theorem dset_split (m : List (String × α)) (k : String) :
    ∃ p q, dget p k = none ∧ ∀ v, dset m k v = p ++ (k, v) :: q := by
  cases h : dget m k with
  | some w =>
    obtain ⟨p, q, hp, _, hs⟩ := dset_split_of_get m h
    exact ⟨p, q, hp, hs⟩
  | none =>
    exact ⟨m, [], h, fun v => by rw [dset_of_dget_none m h v]⟩

theorem nodup_middle {p q : List (String × α)} {k : String} {a : α}
    (h : nodupKeys (p ++ (k, a) :: q) = true) : dget q k = none := by
  induction p with
  | nil =>
    simp [nodupKeys, Option.isNone_iff_eq_none] at h
    exact h.1
  | cons hd t ih =>
    obtain ⟨k1, v1⟩ := hd
    simp [nodupKeys] at h
    exact ih h.2

end DictLemmas

/-! ## Well-formedness lemmas -/

theorem nodupKeys_dset {α : Type} (m : List (String × α)) (k : String) (v : α)
    (h : nodupKeys m = true) : nodupKeys (dset m k v) = true := by
  induction m with
  | nil => simp [nodupKeys, dget]
  | cons hd t ih =>
    obtain ⟨k1, w⟩ := hd
    simp [nodupKeys] at h
    by_cases hk : k1 = k
    · subst hk
      simp [dset, nodupKeys, h.1, h.2]
    · simp [dset, hk, nodupKeys, ih h.2, dget_dset_ne t (fun hh => hk hh.symm) v, h.1]

theorem wfVal_of_dget {m : List (String × Val)} {k : String} {v : Val}
    (hw : wfEntries m = true) (h : dget m k = some v) : wfVal v = true := by
  induction m with
  | nil => simp [dget] at h
  | cons hd t ih =>
    obtain ⟨k1, w⟩ := hd
    simp [wfEntries] at hw
    by_cases hk : k1 = k
    · simp [dget, hk] at h
      exact h ▸ hw.1
    · simp [dget, hk] at h
      exact ih hw.2 h

theorem wfEntries_dset (m : List (String × Val)) (k : String) {v : Val}
    (hw : wfEntries m = true) (hv : wfVal v = true) :
    wfEntries (dset m k v) = true := by
  induction m with
  | nil => simp [dset, wfEntries, hv]
  | cons hd t ih =>
    obtain ⟨k1, w⟩ := hd
    simp [wfEntries] at hw
    by_cases hk : k1 = k <;>
      simp [dset, hk, wfEntries, hv, hw.1, hw.2, ih hw.2]

theorem dictWF_dset {m : List (String × Val)} (k : String) {v : Val}
    (hm : dictWF m = true) (hv : wfVal v = true) : dictWF (dset m k v) = true := by
  simp [dictWF] at hm ⊢
  exact ⟨nodupKeys_dset m k v hm.1, wfEntries_dset m k hm.2 hv⟩

/-! ## Structure lemmas for the dictionary-level merge -/

theorem drdu_nil (m : List (String × Val)) : drdu m [] = some m := by
  simp [drdu]

theorem drdu_cons (m : List (String × Val)) (k : String) (v : Val)
    (rest : List (String × Val)) :
    drdu m ((k, v) :: rest) =
      (stepItem (dgetD m k) v).bind (fun r => drdu (dset m k r) rest) := by
  cases v with
  | int n => simp [drdu, stepItem]
  | str s => simp [drdu, stepItem]
  | map vm =>
    cases h : dgetD m k with
    | map m0 =>
      simp only [drdu, stepItem, stepVal, h]
      cases drdu m0 vm <;> simp
    | int n =>
      simp only [drdu, stepItem, stepVal, h]
      cases vm <;> simp [List.isEmpty]
    | str s =>
      simp only [drdu, stepItem, stepVal, h]
      cases vm <;> simp [List.isEmpty]

theorem drdu_append (u w m : List (String × Val)) :
    drdu m (u ++ w) = (drdu m u).bind (fun x => drdu x w) := by
  induction u generalizing m with
  | nil => simp [drdu_nil]
  | cons hd rest ih =>
    obtain ⟨k, v⟩ := hd
    rw [List.cons_append, drdu_cons, drdu_cons]
    cases stepItem (dgetD m k) v with
    | none => simp
    | some r => simp [ih]

/-- The source function restricted to a dictionary base agrees with the
dictionary-level `drdu`. -/
theorem rdu_eq_drdu (u m : List (String × Val)) :
    recursive_dict_update (Val.map m) u = (drdu m u).map Val.map := by
  have H : ∀ (n : Nat) (u : List (String × Val)), sizeOf u ≤ n →
      ∀ m, recursive_dict_update (Val.map m) u = (drdu m u).map Val.map := by
    intro n
    induction n using Nat.strong_induction_on with
    | _ n ih =>
      intro u hu m
      match u with
      | [] => simp [recursive_dict_update, drdu]
      | (k, Val.int x) :: rest =>
        have hr : sizeOf rest < n := by
          have : sizeOf rest < sizeOf ((k, Val.int x) :: rest) := by simp
          omega
        rw [show recursive_dict_update (Val.map m) ((k, Val.int x) :: rest) =
              recursive_dict_update (Val.map (dset m k (Val.int x))) rest from by
            simp [recursive_dict_update]]
        rw [show drdu m ((k, Val.int x) :: rest) =
              drdu (dset m k (Val.int x)) rest from by simp [drdu]]
        exact ih (sizeOf rest) hr rest le_rfl _
      | (k, Val.str x) :: rest =>
        have hr : sizeOf rest < n := by
          have : sizeOf rest < sizeOf ((k, Val.str x) :: rest) := by simp
          omega
        rw [show recursive_dict_update (Val.map m) ((k, Val.str x) :: rest) =
              recursive_dict_update (Val.map (dset m k (Val.str x))) rest from by
            simp [recursive_dict_update]]
        rw [show drdu m ((k, Val.str x) :: rest) =
              drdu (dset m k (Val.str x)) rest from by simp [drdu]]
        exact ih (sizeOf rest) hr rest le_rfl _
      | (k, Val.map vm) :: rest =>
        have hvm : sizeOf vm < n := by
          have : sizeOf vm < sizeOf ((k, Val.map vm) :: rest) := by simp; omega
          omega
        have hr : sizeOf rest < n := by
          have : sizeOf rest < sizeOf ((k, Val.map vm) :: rest) := by simp
          omega
        cases hg : dgetD m k with
        | map m0 =>
          have hin : recursive_dict_update (Val.map m0) vm =
              (drdu m0 vm).map Val.map := ih (sizeOf vm) hvm vm le_rfl m0
          simp only [recursive_dict_update, drdu, hg, hin]
          cases drdu m0 vm with
          | none => simp
          | some r =>
            simpa using ih (sizeOf rest) hr rest le_rfl (dset m k (Val.map r))
        | int x =>
          cases vm with
          | nil =>
            simp only [recursive_dict_update, drdu, hg, List.isEmpty]
            simpa using ih (sizeOf rest) hr rest le_rfl (dset m k (Val.int x))
          | cons hd2 t2 =>
            simp [recursive_dict_update, drdu, hg, List.isEmpty]
        | str x =>
          cases vm with
          | nil =>
            simp only [recursive_dict_update, drdu, hg, List.isEmpty]
            simpa using ih (sizeOf rest) hr rest le_rfl (dset m k (Val.str x))
          | cons hd2 t2 =>
            simp [recursive_dict_update, drdu, hg, List.isEmpty]
  exact H (sizeOf u) u le_rfl m

/-- Merging does not touch keys that do not occur in the overlay. -/
theorem drdu_dget_frame (u : List (String × Val)) :
    ∀ (m m2 : List (String × Val)) (k : String), dget u k = none →
      drdu m u = some m2 → dget m2 k = dget m k := by
  induction u with
  | nil =>
    intro m m2 k _ h
    rw [drdu_nil] at h
    cases h
    rfl
  | cons hd rest ih =>
    obtain ⟨k1, v1⟩ := hd
    intro m m2 k hk h
    have hne : k1 ≠ k ∧ dget rest k = none := by
      by_cases hh : k1 = k
      · simp [dget, hh] at hk
      · simp [dget, hh] at hk
        exact ⟨hh, hk⟩
    rw [drdu_cons] at h
    cases hs : stepItem (dgetD m k1) v1 with
    | none => rw [hs] at h; simp at h
    | some r =>
      rw [hs] at h
      simp at h
      rw [ih _ _ _ hne.2 h]
      exact dget_dset_ne m hne.1 r

/-- Running the same overlay against two bases that differ only in the value
stored at one key absent from the overlay: the runs succeed together and the
results again differ only in that value. -/
theorem drdu_tworun (q : List (String × Val)) :
    ∀ (k : String), dget q k = none →
    ∀ (p1 q1 : List (String × Val)) (a : Val) (m3 : List (String × Val)),
      dget p1 k = none →
      drdu (p1 ++ (k, a) :: q1) q = some m3 →
      ∃ p2 q2, dget p2 k = none ∧ m3 = p2 ++ (k, a) :: q2 ∧
        ∀ v, drdu (p1 ++ (k, v) :: q1) q = some (p2 ++ (k, v) :: q2) := by
  induction q with
  | nil =>
    intro k _ p1 q1 a m3 hp1 hrun
    rw [drdu_nil] at hrun
    exact ⟨p1, q1, hp1, (Option.some.inj hrun).symm, fun v => drdu_nil _⟩
  | cons hd qrest ih =>
    obtain ⟨k2, v2⟩ := hd
    intro k hk p1 q1 a m3 hp1 hrun
    have hsplit : k2 ≠ k ∧ dget qrest k = none := by
      by_cases h : k2 = k
      · simp [dget, h] at hk
      · simp [dget, h] at hk
        exact ⟨h, hk⟩
    obtain ⟨hne, hkrest⟩ := hsplit
    rw [drdu_cons] at hrun
    cases hstep : stepItem (dgetD (p1 ++ (k, a) :: q1) k2) v2 with
    | none => rw [hstep] at hrun; simp at hrun
    | some r =>
      rw [hstep] at hrun
      simp at hrun
      obtain ⟨p1x, q1x, hp1x, hdset⟩ : ∃ p1x q1x, dget p1x k = none ∧
          ∀ t, dset (p1 ++ (k, t) :: q1) k2 r = p1x ++ (k, t) :: q1x := by
        cases hgp : dget p1 k2 with
        | some w0 =>
          refine ⟨dset p1 k2 r, q1, ?_, fun t => ?_⟩
          · rw [dget_dset_ne p1 hne r]
            exact hp1
          · rw [dset_append_left p1 _ (by simp [hgp]) r]
        | none =>
          refine ⟨p1, dset q1 k2 r, hp1, fun t => ?_⟩
          rw [dset_append_right p1 _ hgp r]
          simp [dset, Ne.symm hne]
      rw [hdset a] at hrun
      obtain ⟨p2, q2, hp2, hm3, hall⟩ := ih k hkrest p1x q1x a m3 hp1x hrun
      refine ⟨p2, q2, hp2, hm3, fun v => ?_⟩
      rw [drdu_cons]
      have hsv : stepItem (dgetD (p1 ++ (k, v) :: q1) k2) v2 = some r := by
        have heq : dgetD (p1 ++ (k, v) :: q1) k2 = dgetD (p1 ++ (k, a) :: q1) k2 := by
          unfold dgetD
          rw [dget_mid_ne p1 q1 hne v a]
        rw [heq, hstep]
      rw [hsv]
      simp
      rw [hdset v]
      exact hall v

/-- Full decomposition of one merge run along the unique occurrence of a key
in the overlay: the value the result holds at that key is the one-item merge
of the overlay value against the value the original base held there, and
replacing the overlay item by any other item whose one-item merge against
that base value succeeds yields the corresponding updated result. -/
theorem drdu_decomp {b p q : List (String × Val)} {k : String} {w : Val}
    {M : List (String × Val)}
    (hp : dget p k = none) (hq : dget q k = none)
    (hrun : drdu b (p ++ (k, w) :: q) = some M) :
    ∃ A, stepItem (dgetD b k) w = some A ∧ dget M k = some A ∧
      ∀ w2 F, stepItem (dgetD b k) w2 = some F →
        drdu b (p ++ (k, w2) :: q) = some (dset M k F) := by
  rw [drdu_append p ((k, w) :: q) b] at hrun
  cases h1 : drdu b p with
  | none => rw [h1] at hrun; simp at hrun
  | some m1 =>
    rw [h1] at hrun
    simp at hrun
    rw [drdu_cons] at hrun
    have hgD : dgetD m1 k = dgetD b k := by
      unfold dgetD
      rw [drdu_dget_frame p b m1 k hp h1]
    rw [hgD] at hrun
    cases hstep : stepItem (dgetD b k) w with
    | none => rw [hstep] at hrun; simp at hrun
    | some A =>
      rw [hstep] at hrun
      simp at hrun
      obtain ⟨p1, q1, hp1, hds⟩ := dset_split m1 k
      rw [hds A] at hrun
      obtain ⟨p2, q2, hp2, hM, hall⟩ := drdu_tworun q k hq p1 q1 A M hp1 hrun
      refine ⟨A, rfl, by rw [hM]; exact dget_middle p2 q2 hp2 A, fun w2 F hF => ?_⟩
      rw [drdu_append p ((k, w2) :: q) b, h1]
      simp
      rw [drdu_cons, hgD, hF]
      simp
      rw [hds F, hall F, hM, dset_middle p2 q2 hp2 A F]

/-- Merging an overlay whose keys are all absent from the base appends the
overlay unchanged (in particular, merging a well-formed overlay into the
empty dictionary copies it verbatim). -/
theorem drdu_copy : ∀ (n : Nat) (u : List (String × Val)), sizeOf u ≤ n →
    nodupKeys u = true → wfEntries u = true →
    ∀ m : List (String × Val), (∀ k v, dget u k = some v → dget m k = none) →
    drdu m u = some (m ++ u) := by
  intro n
  induction n using Nat.strong_induction_on with
  | _ n ih =>
    intro u hu hnd hwf m hdis
    match u with
    | [] => simp [drdu_nil]
    | (k1, v1) :: rest =>
      have hm1 : dget m k1 = none := hdis k1 v1 (by simp [dget])
      have hnd2 : dget rest k1 = none ∧ nodupKeys rest = true := by
        simp [nodupKeys, Option.isNone_iff_eq_none] at hnd
        exact hnd
      have hwf2 : wfVal v1 = true ∧ wfEntries rest = true := by
        simp [wfEntries] at hwf
        exact hwf
      have hrest : sizeOf rest < n := by
        have : sizeOf rest < sizeOf ((k1, v1) :: rest) := by simp
        omega
      have hdis2 : ∀ w : Val, ∀ k v, dget rest k = some v →
          dget (m ++ [(k1, w)]) k = none := by
        intro w k v hkv
        have hkne : k1 ≠ k := by
          intro hh
          subst hh
          rw [hnd2.1] at hkv
          cases hkv
        have hmk : dget m k = none := hdis k v (by simp [dget, hkne, hkv])
        rw [dget_append, hmk]
        simp [dget, hkne]
      have happ : ∀ w : Val, (m ++ [(k1, w)]) ++ rest = m ++ ((k1, w) :: rest) := by
        intro w
        simp
      cases v1 with
      | int x =>
        rw [show drdu m ((k1, Val.int x) :: rest) =
              drdu (dset m k1 (Val.int x)) rest from by simp [drdu]]
        rw [dset_of_dget_none m hm1 (Val.int x)]
        rw [ih (sizeOf rest) hrest rest le_rfl hnd2.2 hwf2.2 _ (hdis2 _)]
        rw [happ]
      | str x =>
        rw [show drdu m ((k1, Val.str x) :: rest) =
              drdu (dset m k1 (Val.str x)) rest from by simp [drdu]]
        rw [dset_of_dget_none m hm1 (Val.str x)]
        rw [ih (sizeOf rest) hrest rest le_rfl hnd2.2 hwf2.2 _ (hdis2 _)]
        rw [happ]
      | map vm =>
        have hvm : sizeOf vm < n := by
          have : sizeOf vm < sizeOf ((k1, Val.map vm) :: rest) := by simp; omega
          omega
        have hwfvm : nodupKeys vm = true ∧ wfEntries vm = true := by
          simp [wfVal] at hwf2
          exact hwf2.1
        have hgD : dgetD m k1 = Val.map [] := by
          unfold dgetD
          rw [hm1]
          rfl
        have hcopy : drdu [] vm = some vm := by
          have := ih (sizeOf vm) hvm vm le_rfl hwfvm.1 hwfvm.2 []
            (fun k v _ => by simp [dget])
          simpa using this
        simp only [drdu, hgD, hcopy]
        rw [dset_of_dget_none m hm1 (Val.map vm)]
        rw [ih (sizeOf rest) hrest rest le_rfl hnd2.2 hwf2.2 _ (hdis2 _)]
        rw [happ]

/-- Merging well-formed dictionaries yields a well-formed dictionary. -/
theorem drdu_wf : ∀ (n : Nat) (u : List (String × Val)), sizeOf u ≤ n →
    ∀ (m r : List (String × Val)), dictWF m = true →
      nodupKeys u = true → wfEntries u = true →
      drdu m u = some r → dictWF r = true := by
  intro n
  induction n using Nat.strong_induction_on with
  | _ n ih =>
    intro u hu m r hm hnd hwf hrun
    match u with
    | [] =>
      rw [drdu_nil] at hrun
      cases hrun
      exact hm
    | (k1, v1) :: rest =>
      have hnd2 : nodupKeys rest = true := by
        simp [nodupKeys] at hnd
        exact hnd.2
      have hwf2 : wfVal v1 = true ∧ wfEntries rest = true := by
        simp [wfEntries] at hwf
        exact hwf
      have hrest : sizeOf rest < n := by
        have : sizeOf rest < sizeOf ((k1, v1) :: rest) := by simp
        omega
      rw [drdu_cons] at hrun
      cases hstep : stepItem (dgetD m k1) v1 with
      | none => rw [hstep] at hrun; simp at hrun
      | some A =>
        rw [hstep] at hrun
        simp at hrun
        have hAwf : wfVal A = true := by
          cases v1 with
          | int x => cases hstep; simp [wfVal]
          | str x => cases hstep; simp [wfVal]
          | map vm =>
            have hvm : sizeOf vm < n := by
              have : sizeOf vm < sizeOf ((k1, Val.map vm) :: rest) := by simp; omega
              omega
            have hwfvm : nodupKeys vm = true ∧ wfEntries vm = true := by
              simp [wfVal] at hwf2
              exact hwf2.1
            simp [stepItem, stepVal] at hstep
            cases hgm : dgetD m k1 with
            | map m0 =>
              have hm0 : dictWF m0 = true := by
                cases hg : dget m k1 with
                | none =>
                  unfold dgetD at hgm
                  rw [hg] at hgm
                  cases hgm
                  simp [dictWF, nodupKeys, wfEntries]
                | some v0 =>
                  have := wfVal_of_dget (by simp [dictWF] at hm; exact hm.2) hg
                  unfold dgetD at hgm
                  rw [hg] at hgm
                  simp at hgm
                  subst hgm
                  simp [wfVal, dictWF] at this ⊢
                  exact this
              rw [hgm] at hstep
              simp [stepVal] at hstep
              obtain ⟨r0, hr0, hA⟩ := hstep
              subst hA
              have := ih (sizeOf vm) hvm vm le_rfl m0 r0
                (by simp [dictWF] at hm0 ⊢; exact hm0) hwfvm.1 hwfvm.2 hr0
              simp [wfVal, dictWF] at this ⊢
              exact this
            | int x =>
              rw [hgm] at hstep
              simp [stepVal] at hstep
              cases vm with
              | nil =>
                simp at hstep
                cases hstep
                simp [wfVal]
              | cons h2 t2 => simp [List.isEmpty] at hstep
            | str x =>
              rw [hgm] at hstep
              simp [stepVal] at hstep
              cases vm with
              | nil =>
                simp at hstep
                cases hstep
                simp [wfVal]
              | cons h2 t2 => simp [List.isEmpty] at hstep
        exact ih (sizeOf rest) hrest rest le_rfl _ r
          (dictWF_dset k1 hm hAwf) hnd2 hwf2.2 hrun

/-- Master lemma behind associativity of layered merging.  First part:
appending one item to an overlay is absorbed into the overlay by one
dictionary assignment (when the combined run succeeds, the one-item merge of
the new item against the value the overlay itself holds succeeds, and
merging the so-updated overlay gives the same result).  Second part:
whenever merging `u` and then `w` into a base succeeds, pre-combining `u`
and `w` succeeds and merging the combination into the base gives the same
result. -/
theorem drdu_assoc_master : ∀ (n : Nat),
    (∀ (b u : List (String × Val)) (k : String) (v : Val)
        (x : List (String × Val)),
      sizeOf v ≤ n → nodupKeys u = true → wfEntries u = true → wfVal v = true →
      drdu b (u ++ [(k, v)]) = some x →
      ∃ F, stepItem (dgetD u k) v = some F ∧ wfVal F = true ∧
        drdu b (dset u k F) = some x)
  ∧ (∀ (b u w y : List (String × Val)),
      sizeOf w ≤ n → nodupKeys u = true → wfEntries u = true →
      nodupKeys w = true → wfEntries w = true →
      drdu b (u ++ w) = some y →
      ∃ c, drdu u w = some c ∧ drdu b c = some y) := by
  intro n
  induction n using Nat.strong_induction_on with
  | _ n ih =>
    constructor
    · -- one-item absorption
      intro b u k v x hv hnd hwfe hwv hrun
      cases hget : dget u k with
      | none =>
        have hgD : dgetD u k = Val.map [] := by simp [dgetD, hget]
        have hstep : stepItem (dgetD u k) v = some v := by
          cases v with
          | int s => simp [stepItem]
          | str s => simp [stepItem]
          | map vm =>
            have hvm : nodupKeys vm = true ∧ wfEntries vm = true := by
              simp [wfVal] at hwv
              exact hwv
            have hcopy : drdu [] vm = some vm := by
              simpa using drdu_copy (sizeOf vm) vm le_rfl hvm.1 hvm.2 []
                (fun k2 v2 _ => by simp [dget])
            rw [hgD]
            simp [stepItem, stepVal, hcopy]
        refine ⟨v, hstep, hwv, ?_⟩
        rw [dset_of_dget_none u hget v]
        exact hrun
      | some w =>
        obtain ⟨p, q, hp, hu, hds⟩ := dset_split_of_get u hget
        have hq : dget q k = none := nodup_middle (by rw [hu] at hnd; exact hnd)
        rw [drdu_append] at hrun
        cases hbu : drdu b u with
        | none => rw [hbu] at hrun; simp at hrun
        | some M =>
          rw [hbu] at hrun
          simp at hrun
          rw [drdu_cons] at hrun
          cases hstepM : stepItem (dgetD M k) v with
          | none => rw [hstepM] at hrun; simp at hrun
          | some F =>
            rw [hstepM] at hrun
            simp [drdu_nil] at hrun
            have hbu2 : drdu b (p ++ (k, w) :: q) = some M := by
              rw [← hu]
              exact hbu
            obtain ⟨A, hstepA, hMk, hOS⟩ := drdu_decomp hp hq hbu2
            have hgDM : dgetD M k = A := by simp [dgetD, hMk]
            rw [hgDM] at hstepM
            have hgDu : dgetD u k = w := by simp [dgetD, hget]
            cases v with
            | int s =>
              have hF : Val.int s = F := by simpa [stepItem] using hstepM
              refine ⟨Val.int s, by rw [hgDu]; simp [stepItem],
                by simp [wfVal], ?_⟩
              rw [hds (Val.int s)]
              rw [hOS (Val.int s) (Val.int s) (by simp [stepItem])]
              rw [← hrun, hF]
            | str s =>
              have hF : Val.str s = F := by simpa [stepItem] using hstepM
              refine ⟨Val.str s, by rw [hgDu]; simp [stepItem],
                by simp [wfVal], ?_⟩
              rw [hds (Val.str s)]
              rw [hOS (Val.str s) (Val.str s) (by simp [stepItem])]
              rw [← hrun, hF]
            | map vm =>
              have hvm : nodupKeys vm = true ∧ wfEntries vm = true := by
                simp [wfVal] at hwv
                exact hwv
              have hsz : sizeOf vm < n := by
                have : sizeOf (Val.map vm) = 1 + sizeOf vm := by simp
                omega
              simp only [stepItem] at hstepM
              cases w with
              | map e =>
                have hwfe2 : wfVal (Val.map e) = true := wfVal_of_dget hwfe hget
                have he : nodupKeys e = true ∧ wfEntries e = true := by
                  simp [wfVal] at hwfe2
                  exact hwfe2
                simp only [stepItem] at hstepA
                cases hb : dgetD b k with
                | map b0 =>
                  rw [hb] at hstepA
                  simp [stepVal] at hstepA
                  obtain ⟨r1, hr1, hA⟩ := hstepA
                  subst hA
                  simp [stepVal] at hstepM
                  obtain ⟨rr, hrr, hF⟩ := hstepM
                  subst hF
                  obtain ⟨c, hc1, hc2⟩ := (ih (sizeOf vm) hsz).2 b0 e vm rr
                    le_rfl he.1 he.2 hvm.1 hvm.2
                    (by rw [drdu_append, hr1]; simpa using hrr)
                  have hcwf : dictWF c = true := drdu_wf (sizeOf vm) vm le_rfl e c
                    (by simp [dictWF, he.1, he.2]) hvm.1 hvm.2 hc1
                  refine ⟨Val.map c, ?_, ?_, ?_⟩
                  · rw [hgDu]
                    simp [stepItem, stepVal, hc1]
                  · simp [wfVal, dictWF] at hcwf ⊢
                    exact hcwf
                  · rw [hds (Val.map c)]
                    rw [hOS (Val.map c) (Val.map rr)
                      (by simp [stepItem]; rw [hb]; simp [stepVal, hc2])]
                    rw [← hrun]
                | int s0 =>
                  rw [hb] at hstepA
                  simp [stepVal] at hstepA
                  cases e with
                  | cons h2 t2 => simp [List.isEmpty] at hstepA
                  | nil =>
                    simp at hstepA
                    subst hstepA
                    simp [stepVal] at hstepM
                    cases vm with
                    | cons h3 t3 => simp [List.isEmpty] at hstepM
                    | nil =>
                      simp at hstepM
                      refine ⟨Val.map [], ?_, by simp [wfVal, nodupKeys, wfEntries], ?_⟩
                      · rw [hgDu]
                        simp [stepItem, stepVal, drdu_nil]
                      · rw [dset_of_dget u hget, hbu, ← hrun, ← hstepM,
                          dset_of_dget M hMk]
                | str s0 =>
                  rw [hb] at hstepA
                  simp [stepVal] at hstepA
                  cases e with
                  | cons h2 t2 => simp [List.isEmpty] at hstepA
                  | nil =>
                    simp at hstepA
                    subst hstepA
                    simp [stepVal] at hstepM
                    cases vm with
                    | cons h3 t3 => simp [List.isEmpty] at hstepM
                    | nil =>
                      simp at hstepM
                      refine ⟨Val.map [], ?_, by simp [wfVal, nodupKeys, wfEntries], ?_⟩
                      · rw [hgDu]
                        simp [stepItem, stepVal, drdu_nil]
                      · rw [dset_of_dget u hget, hbu, ← hrun, ← hstepM,
                          dset_of_dget M hMk]
              | int s0 =>
                have hA : Val.int s0 = A := by simpa [stepItem] using hstepA
                subst hA
                simp [stepVal] at hstepM
                cases vm with
                | cons h3 t3 => simp [List.isEmpty] at hstepM
                | nil =>
                  simp at hstepM
                  refine ⟨Val.int s0, ?_, by simp [wfVal], ?_⟩
                  · rw [hgDu]
                    simp [stepItem, stepVal]
                  · rw [dset_of_dget u hget, hbu, ← hrun, ← hstepM,
                      dset_of_dget M hMk]
              | str s0 =>
                have hA : Val.str s0 = A := by simpa [stepItem] using hstepA
                subst hA
                simp [stepVal] at hstepM
                cases vm with
                | cons h3 t3 => simp [List.isEmpty] at hstepM
                | nil =>
                  simp at hstepM
                  refine ⟨Val.str s0, ?_, by simp [wfVal], ?_⟩
                  · rw [hgDu]
                    simp [stepItem, stepVal]
                  · rw [dset_of_dget u hget, hbu, ← hrun, ← hstepM,
                      dset_of_dget M hMk]
    · -- sequential composition
      intro b u w y hwn hndu hwfu hndw hwfw hrun
      match w with
      | [] =>
        refine ⟨u, drdu_nil u, ?_⟩
        simpa using hrun
      | (k, v) :: w2 =>
        have hv : sizeOf v < n := by
          have : sizeOf v < sizeOf ((k, v) :: w2) := by simp; omega
          omega
        have hw2 : sizeOf w2 < n := by
          have : sizeOf w2 < sizeOf ((k, v) :: w2) := by simp
          omega
        have hwv : wfVal v = true := by
          simp [wfEntries] at hwfw
          exact hwfw.1
        have hndw2 : nodupKeys w2 = true := by
          simp [nodupKeys] at hndw
          exact hndw.2
        have hwfw2 : wfEntries w2 = true := by
          simp [wfEntries] at hwfw
          exact hwfw.2
        rw [show u ++ (k, v) :: w2 = (u ++ [(k, v)]) ++ w2 from by simp,
          drdu_append] at hrun
        cases h1 : drdu b (u ++ [(k, v)]) with
        | none => rw [h1] at hrun; simp at hrun
        | some x =>
          rw [h1] at hrun
          simp at hrun
          obtain ⟨F, hF, hFwf, hbF⟩ :=
            (ih (sizeOf v) hv).1 b u k v x le_rfl hndu hwfu hwv h1
          obtain ⟨c, hc1, hc2⟩ := (ih (sizeOf w2) hw2).2 b (dset u k F) w2 y le_rfl
            (nodupKeys_dset u k F hndu) (wfEntries_dset u k hwfu hFwf) hndw2 hwfw2
            (by rw [drdu_append, hbF]; simpa using hrun)
          refine ⟨c, ?_, hc2⟩
          rw [drdu_cons, hF]
          simpa using hc1

/-! ## Lemmas about the INI parser model -/

theorem dget_dpop_ne {α : Type} (m : List (String × α)) {k j : String}
    (h : k ≠ j) : dget (dpop m j) k = dget m k := by
  induction m with
  | nil => simp [dpop]
  | cons hd t ih =>
    obtain ⟨k1, v⟩ := hd
    by_cases hk : k1 = j
    · subst hk
      simp [dpop, dget, Ne.symm h]
    · simp [dpop, hk, dget, ih]

theorem dget_dpop_self {α : Type} (m : List (String × α)) (j : String)
    (h : nodupKeys m = true) : dget (dpop m j) j = none := by
  induction m with
  | nil => simp [dpop, dget]
  | cons hd t ih =>
    obtain ⟨k1, v⟩ := hd
    simp [nodupKeys, Option.isNone_iff_eq_none] at h
    by_cases hk : k1 = j
    · subst hk
      simp [dpop]
      exact h.1
    · simp [dpop, hk, dget]
      exact ih h.2

theorem dlast_of_dget_none {α : Type} (m : List (String × α)) (k : String)
    (h : dget m k = none) : dlast m k = none := by
  induction m with
  | nil => simp [dlast]
  | cons hd t ih =>
    obtain ⟨k1, v⟩ := hd
    by_cases hk : k1 = k
    · subst hk
      simp [dget] at h
    · simp [dget, hk] at h
      simp [dlast, ih h, hk]

theorem dget_dictUpdate {α : Type} (upd : List (String × α)) :
    ∀ (base : List (String × α)) (k : String),
      dget (dictUpdate base upd) k =
        match dlast upd k with
        | some v => some v
        | none => dget base k := by
  induction upd with
  | nil => intro base k; simp [dictUpdate, dlast]
  | cons hd t ih =>
    obtain ⟨k1, v1⟩ := hd
    intro base k
    have hstep : dictUpdate base ((k1, v1) :: t) = dictUpdate (dset base k1 v1) t := by
      simp [dictUpdate]
    rw [hstep, ih]
    cases hl : dlast t k with
    | some w => simp [dlast, hl]
    | none =>
      by_cases hk : k1 = k
      · subst hk
        simp [dlast, hl, dget_dset_self]
      · simp [dlast, hl, hk, dget_dset_ne base hk v1]

theorem nodupKeys_dictUpdate {α : Type} (upd : List (String × α)) :
    ∀ base : List (String × α), nodupKeys base = true →
      nodupKeys (dictUpdate base upd) = true := by
  induction upd with
  | nil => intro base h; simpa [dictUpdate] using h
  | cons hd t ih =>
    obtain ⟨k1, v1⟩ := hd
    intro base h
    have hstep : dictUpdate base ((k1, v1) :: t) = dictUpdate (dset base k1 v1) t := by
      simp [dictUpdate]
    rw [hstep]
    exact ih _ (nodupKeys_dset base k1 v1 h)

theorem readIniSection_defaults_nodup (st : MyParser) (sect : String)
    (opts : List (String × String)) (h : nodupKeys st._defaults = true) :
    nodupKeys (readIniSection st sect opts)._defaults = true := by
  unfold readIniSection
  by_cases hs : sect = "DEFAULT"
  · simp only [hs, if_pos rfl]
    exact nodupKeys_dictUpdate opts _ h
  · rw [if_neg hs]
    cases dget st._sections sect <;> simpa using h

theorem read_defaults_nodup (f : IniFile) :
    ∀ st : MyParser, nodupKeys st._defaults = true →
      nodupKeys (st.read f)._defaults = true := by
  induction f with
  | nil => intro st h; simpa [MyParser.read] using h
  | cons s t ih =>
    intro st h
    have hstep : st.read (s :: t) = (readIniSection st s.1 s.2).read t := by
      simp [MyParser.read]
    rw [hstep]
    exact ih _ (readIniSection_defaults_nodup st s.1 s.2 h)

theorem fold_defaults_nodup (files : List IniFile) :
    ∀ st : MyParser, nodupKeys st._defaults = true →
      nodupKeys ((files.foldl MyParser.read st)._defaults) = true := by
  induction files with
  | nil => intro st h; simpa using h
  | cons f t ih =>
    intro st h
    simp only [List.foldl_cons]
    exact ih _ (read_defaults_nodup f st h)

/-! ## Claim theorems -/

/-- C2: merging `a: 1, b: (c: 3, d: 4)` with the overlay
`a: 2, b: (d: 5)` yields exactly `a: 2, b: (c: 3, d: 5)`: the nested mapping
present in both inputs is merged key by key, not replaced wholesale. -/
theorem c2_merge_example :
    recursive_dict_update
      (Val.map [("a", Val.int 1), ("b", Val.map [("c", Val.int 3), ("d", Val.int 4)])])
      [("a", Val.int 2), ("b", Val.map [("d", Val.int 5)])] =
    some (Val.map [("a", Val.int 2),
                   ("b", Val.map [("c", Val.int 3), ("d", Val.int 5)])]) := by
  simp [recursive_dict_update, dget, dset, dgetD]

/-- C3 counterexample: with a non-mapping base value at the key and a
nonempty mapping overlay value there, `recursive_dict_update` raises (the
scalar is passed to the recursive call, whose first iteration fails) instead
of substituting a fresh empty mapping and returning the overlay mapping. -/
theorem c3_counterexample :
    recursive_dict_update (Val.map [("x", Val.int 1)])
      [("x", Val.map [("y", Val.int 2)])] = none := by
  simp [recursive_dict_update, dget, dset, dgetD]

/-- C3 amended: when the overlay value at `k` is a mapping and the base
value at `k` is a non-mapping, no empty mapping is substituted
(`d.get(k, ...)` returns the existing value): if the overlay mapping is
nonempty the call fails, and if it is empty the base keeps its non-mapping
value at `k` (the iteration is a no-op).  The empty-mapping substitution
happens only for keys absent from the base. -/
theorem c3_amended (m : List (String × Val)) (k : String) (w : Val)
    (hw : w.isMap = false) (hget : dget m k = some w)
    (x : String × Val) (vs rest : List (String × Val)) :
    recursive_dict_update (Val.map m) ((k, Val.map (x :: vs)) :: rest) = none ∧
    recursive_dict_update (Val.map m) ((k, Val.map []) :: rest) =
      recursive_dict_update (Val.map m) rest := by
  have hgD : dgetD m k = w := by simp [dgetD, hget]
  constructor
  · cases w with
    | map mm => simp [Val.isMap] at hw
    | int n => simp [recursive_dict_update, hgD]
    | str s => simp [recursive_dict_update, hgD]
  · cases w with
    | map mm => simp [Val.isMap] at hw
    | int n =>
      simp only [recursive_dict_update, hgD]
      rw [dset_of_dget m hget]
    | str s =>
      simp only [recursive_dict_update, hgD]
      rw [dset_of_dget m hget]

/-- C3 amended, concrete instance: merging the overlay `x: (y: 2)` into the
base `x: 1` fails, and merging the overlay `x: ()` into it is a no-op. -/
theorem c3_amended_witness :
    recursive_dict_update (Val.map [("x", Val.int 1)])
      [("x", Val.map [("y", Val.int 2)])] = none ∧
    recursive_dict_update (Val.map [("x", Val.int 1)]) [("x", Val.map [])] =
      recursive_dict_update (Val.map [("x", Val.int 1)]) [] :=
  c3_amended [("x", Val.int 1)] "x" (Val.int 1) rfl rfl ("y", Val.int 2) [] []

/-- C1: whenever the search finds exactly two YAML candidate files in
search-path order, the earlier parsing to `a: 1, b: (c: 3, d: 4)` and the
later to `a: 2, b: (d: 5)`, the call returns the deep merge
`a: 2, b: (c: 3, d: 5)`: the later layer overrides per key at every nesting
depth and untouched nested keys of the earlier layer are preserved. -/
theorem c1_yaml_layered_merge (cf : ConfigFinder) (fs : FileSystem)
    (filename p1 p2 : String)
    (hext : (splitext filename).2 = ".yaml" ∨ (splitext filename).2 = ".yml")
    (hpaths : config_search_paths filename cf.paths fs.isfile true = [p1, p2])
    (h1 : fs.yamlLoad p1 = some (Val.map
      [("a", Val.int 1), ("b", Val.map [("c", Val.int 3), ("d", Val.int 4)])]))
    (h2 : fs.yamlLoad p2 = some (Val.map
      [("a", Val.int 2), ("b", Val.map [("d", Val.int 5)])])) :
    cf.call fs filename = some (CallResult.yamlResult (Val.map
      [("a", Val.int 2), ("b", Val.map [("c", Val.int 3), ("d", Val.int 5)])])) := by
  have hne : ¬((splitext filename).2 = ".cfg" ∨ (splitext filename).2 = ".ini") := by
    rcases hext with h | h <;> rw [h] <;> decide
  simp only [ConfigFinder.call, hpaths]
  rw [if_neg hne, if_pos hext]
  simp only [List.map_cons, List.map_nil, h1, h2]
  simp [yamlFold, recursive_dict_update, dget, dset, dgetD]

/-- C1, concrete instance: a filesystem holding the two YAML layers in
`/tmp` and `.` produces the merged configuration. -/
theorem c1_yaml_layered_merge_witness :
    ConfigFinder.call ⟨[some "/tmp", some "."]⟩
      ⟨fun p => p == "/tmp/conf.yaml" || p == "./conf.yaml",
       fun p =>
         if p = "/tmp/conf.yaml" then
           some (Val.map [("a", Val.int 1),
             ("b", Val.map [("c", Val.int 3), ("d", Val.int 4)])])
         else if p = "./conf.yaml" then
           some (Val.map [("a", Val.int 2), ("b", Val.map [("d", Val.int 5)])])
         else none,
       fun _ => []⟩ "conf.yaml" =
    some (CallResult.yamlResult (Val.map
      [("a", Val.int 2), ("b", Val.map [("c", Val.int 3), ("d", Val.int 5)])])) :=
  c1_yaml_layered_merge _ _ "conf.yaml" "/tmp/conf.yaml" "./conf.yaml"
    (Or.inl (by decide)) (by decide) (by rfl) (by rfl)

/-- C4: evaluating the code at the failing input.  One candidate YAML file
exists and is empty, so `yaml.load` returns Python `None`; the call then
raises inside `recursive_dict_update` (`None` has no `items`), the `none`
outcome, instead of treating the empty parse as an empty mapping. -/
theorem c4_empty_yaml_raises :
    ConfigFinder.call ⟨[some "."]⟩
      ⟨fun p => p == "./conf.yaml", fun _ => none, fun _ => []⟩ "conf.yaml" =
    none := by
  rfl

/-- C5: `config_search_paths` joins every non-null directory with the
filename in input order; with the existence check off it returns all
candidates unchanged (in particular `/tmp` and `.` with `conf.cfg` give
exactly the two joined paths, whatever the filesystem); with the check on it
returns exactly the candidates accepted by the filesystem predicate, as an
order-preserving sublist, and a missing directory merely contributes no
candidate, never an error. -/
theorem c5_path_resolution (filename : String) (dirs : List (Option String))
    (isfile : String → Bool) :
    config_search_paths filename dirs isfile false =
      (dirs.filterMap id).map (fun d => osPathJoin d filename) ∧
    config_search_paths filename dirs isfile true =
      ((dirs.filterMap id).map (fun d => osPathJoin d filename)).filter isfile ∧
    (config_search_paths filename dirs isfile true).Sublist
      (config_search_paths filename dirs isfile false) ∧
    config_search_paths "conf.cfg" [some "/tmp", some "."] isfile false =
      ["/tmp/conf.cfg", "./conf.cfg"] := by
  refine ⟨rfl, rfl, ?_, rfl⟩
  simp only [config_search_paths, if_pos, if_neg]
  exact List.filter_sublist _

/-- C6: INI loading.  First: with two candidate files holding the
overlapping section `b` (`c: 3, d: 4` earlier, `d: 5` later), the call
parses both into the same accumulating parser and returns section `b` as
the string-valued dictionary `c: "3", d: "5"` (last file wins per key).
Second: for any file sequence, every section dictionary the flattened
result holds excludes the internal `__name__` bookkeeping key.  Third: in
any parser state, a default-section key not overridden inside a section is
inherited by that section in the flattened result. -/
theorem c6_ini_semantics :
    (ConfigFinder.call ⟨[some "/tmp", some "."]⟩
        ⟨fun p => p == "/tmp/conf.ini" || p == "./conf.ini",
         fun _ => none,
         fun p =>
           if p = "/tmp/conf.ini" then [("b", [("c", "3"), ("d", "4")])]
           else if p = "./conf.ini" then [("b", [("d", "5")])]
           else []⟩ "conf.ini" =
      some (CallResult.iniResult [("b", [("c", "3"), ("d", "5")])])) ∧
    (∀ (files : List IniFile) (entry : String × List (String × String)),
      entry ∈ (files.foldl MyParser.read ⟨[], []⟩).as_dict →
      dget entry.2 "__name__" = none) ∧
    (∀ (p : MyParser) (nm : String) (sec : List (String × String)) (k v : String),
      (nm, sec) ∈ p._sections → k ≠ "__name__" →
      dget p._defaults k = some v → dget sec k = none →
      (nm, dpop (dictUpdate p._defaults sec) "__name__") ∈ p.as_dict ∧
      dget (dpop (dictUpdate p._defaults sec) "__name__") k = some v) := by
  refine ⟨by rfl, ?_, ?_⟩
  · intro files entry hmem
    have hnd : nodupKeys ((files.foldl MyParser.read ⟨[], []⟩)._defaults) = true :=
      fold_defaults_nodup files ⟨[], []⟩ (by simp [nodupKeys])
    simp only [MyParser.as_dict, List.mem_map] at hmem
    obtain ⟨s, hs, hentry⟩ := hmem
    rw [← hentry]
    exact dget_dpop_self _ _ (nodupKeys_dictUpdate s.2 _ hnd)
  · intro p nm sec k v hmem hk hd hs
    constructor
    · exact List.mem_map.2 ⟨(nm, sec), hmem, rfl⟩
    · rw [dget_dpop_ne _ hk, dget_dictUpdate sec p._defaults k,
        dlast_of_dget_none sec k hs]
      exact hd

/-- C6, concrete instance: in a parser state with default `e: 7` and a
section `b` not overriding `e`, the flattened section `b` inherits
`e: "7"`. -/
theorem c6_ini_semantics_witness :
    ("b", dpop (dictUpdate [("e", "7")] [("__name__", "b"), ("d", "5")]) "__name__")
        ∈ (MyParser.mk [("e", "7")] [("b", [("__name__", "b"), ("d", "5")])]).as_dict ∧
    dget (dpop (dictUpdate [("e", "7")] [("__name__", "b"), ("d", "5")]) "__name__")
        "e" = some "7" :=
  c6_ini_semantics.2.2 (MyParser.mk [("e", "7")] [("b", [("__name__", "b"), ("d", "5")])])
    "b" [("__name__", "b"), ("d", "5")] "e" "7" (by simp) (by decide) rfl rfl

/-- C7: a recognized extension whose candidate list is empty yields an empty
configuration and the call never raises: the empty flattened parser for the
section formats, the empty mapping for the YAML formats. -/
theorem c7_empty_candidates (cf : ConfigFinder) (fs : FileSystem) (filename : String)
    (hpaths : config_search_paths filename cf.paths fs.isfile true = []) :
    ((splitext filename).2 = ".cfg" ∨ (splitext filename).2 = ".ini" →
      cf.call fs filename = some (CallResult.iniResult [])) ∧
    ((splitext filename).2 = ".yaml" ∨ (splitext filename).2 = ".yml" →
      cf.call fs filename = some (CallResult.yamlResult (Val.map []))) := by
  constructor
  · intro hext
    simp only [ConfigFinder.call, hpaths]
    rw [if_pos hext]
    simp [MyParser.as_dict]
  · intro hext
    have hne : ¬((splitext filename).2 = ".cfg" ∨ (splitext filename).2 = ".ini") := by
      rcases hext with h | h <;> rw [h] <;> decide
    simp only [ConfigFinder.call, hpaths]
    rw [if_neg hne, if_pos hext]
    simp [yamlFold]

/-- C7, concrete instance: an empty search path yields the empty mapping for
a YAML filename. -/
theorem c7_empty_candidates_witness :
    ConfigFinder.call ⟨[]⟩ ⟨fun _ => false, fun _ => none, fun _ => []⟩ "conf.yaml" =
      some (CallResult.yamlResult (Val.map [])) :=
  (c7_empty_candidates ⟨[]⟩ _ "conf.yaml" rfl).2 (Or.inl (by decide))

/-- C8: a filename whose extension is none of the four recognized ones
(case-sensitively) makes the call fall through both format branches and
return Python `None` rather than raising, whatever the filesystem holds. -/
theorem c8_unrecognized_extension (cf : ConfigFinder) (fs : FileSystem)
    (filename : String)
    (h1 : (splitext filename).2 ≠ ".cfg") (h2 : (splitext filename).2 ≠ ".ini")
    (h3 : (splitext filename).2 ≠ ".yaml") (h4 : (splitext filename).2 ≠ ".yml") :
    cf.call fs filename = some CallResult.pyNone := by
  simp only [ConfigFinder.call]
  rw [if_neg (fun hc => hc.elim h1 h2), if_neg (fun hc => hc.elim h3 h4)]

/-- C8, concrete instance: loading `conf.txt` returns Python `None` even
when every candidate file exists. -/
theorem c8_unrecognized_extension_witness :
    ConfigFinder.call ⟨[some "/tmp"]⟩ ⟨fun _ => true, fun _ => none, fun _ => []⟩
      "conf.txt" = some CallResult.pyNone :=
  c8_unrecognized_extension _ _ "conf.txt" (by decide) (by decide) (by decide)
    (by decide)

/-- C9 counterexample: with base `k: 1`, first overlay `k: (x: 2)` and
second overlay `k: 3`, applying the overlays sequentially raises (merging a
nonempty mapping onto the scalar `1` fails), while pre-combining the
overlays (second wins, giving `k: 3`) and merging the combination into the
base succeeds; the two sides are not equal, so sequential overlay
application is not associative on the code. -/
theorem c9_counterexample :
    ¬ ((recursive_dict_update (Val.map [("k", Val.int 1)])
          [("k", Val.map [("x", Val.int 2)])]).bind
        (fun x => recursive_dict_update x [("k", Val.int 3)]) =
      (recursive_dict_update (Val.map [("k", Val.map [("x", Val.int 2)])])
          [("k", Val.int 3)]).bind
        (fun c =>
          match c with
          | Val.map cm => recursive_dict_update (Val.map [("k", Val.int 1)]) cm
          | _ => none)) := by
  simp [recursive_dict_update, dget, dset, dgetD]

/-- C9 amended: one-directional associativity.  For well-formed overlay
dictionaries (pairwise-distinct keys at every nesting level, as in every
real Python dictionary), whenever the sequential application
`merge(merge(base, overlay1), overlay2)` succeeds, pre-combining
`merge(overlay1, overlay2)` also succeeds and merging the combination into
the base yields the same configuration.  (The counterexample shows the two
sides can differ when the sequential application raises.) -/
theorem c9_assoc_amended (b u w : List (String × Val)) (x y : Val)
    (hu : dictWF u = true) (hw : dictWF w = true)
    (h1 : recursive_dict_update (Val.map b) u = some x)
    (h2 : recursive_dict_update x w = some y) :
    ∃ c, recursive_dict_update (Val.map u) w = some (Val.map c) ∧
      recursive_dict_update (Val.map b) c = some y := by
  rw [rdu_eq_drdu] at h1
  cases hbu : drdu b u with
  | none => rw [hbu] at h1; simp at h1
  | some mx =>
    rw [hbu] at h1
    simp at h1
    subst h1
    rw [rdu_eq_drdu] at h2
    cases hxw : drdu mx w with
    | none => rw [hxw] at h2; simp at h2
    | some my =>
      rw [hxw] at h2
      simp at h2
      subst h2
      have hcomb : drdu b (u ++ w) = some my := by
        rw [drdu_append, hbu]
        simpa using hxw
      simp only [dictWF, Bool.and_eq_true] at hu hw
      obtain ⟨c, hc1, hc2⟩ := (drdu_assoc_master (sizeOf w)).2 b u w my le_rfl
        hu.1 hu.2 hw.1 hw.2 hcomb
      refine ⟨c, ?_, ?_⟩
      · rw [rdu_eq_drdu, hc1]
        rfl
      · rw [rdu_eq_drdu, hc2]
        rfl

/-- C9 amended, concrete instance: base `a: 1`, first overlay
`a: 2, b: (c: 3)`, second overlay `b: (d: 4)`; both sides succeed and agree
on `a: 2, b: (c: 3, d: 4)`. -/
theorem c9_assoc_amended_witness :
    ∃ c, recursive_dict_update
        (Val.map [("a", Val.int 2), ("b", Val.map [("c", Val.int 3)])])
        [("b", Val.map [("d", Val.int 4)])] = some (Val.map c) ∧
      recursive_dict_update (Val.map [("a", Val.int 1)]) c =
        some (Val.map [("a", Val.int 2),
          ("b", Val.map [("c", Val.int 3), ("d", Val.int 4)])]) :=
  c9_assoc_amended [("a", Val.int 1)]
    [("a", Val.int 2), ("b", Val.map [("c", Val.int 3)])]
    [("b", Val.map [("d", Val.int 4)])]
    (Val.map [("a", Val.int 2), ("b", Val.map [("c", Val.int 3)])])
    (Val.map [("a", Val.int 2), ("b", Val.map [("c", Val.int 3), ("d", Val.int 4)])])
    (by simp [dictWF, nodupKeys, wfEntries, wfVal, dget])
    (by simp [dictWF, nodupKeys, wfEntries, wfVal, dget])
    (by simp [recursive_dict_update, dget, dset, dgetD])
    (by simp [recursive_dict_update, dget, dset, dgetD])

/-- C10: the merge only touches keys occurring in the overlay: a key present
in the base and absent from the overlay keeps exactly the value the base
held, in any successful merge. -/
theorem c10_frame (b u : List (String × Val)) (k : String) (v : Val)
    (m : List (String × Val))
    (hk : dget u k = none) (hb : dget b k = some v)
    (hrun : recursive_dict_update (Val.map b) u = some (Val.map m)) :
    dget m k = some v := by
  rw [rdu_eq_drdu] at hrun
  cases hd : drdu b u with
  | none => rw [hd] at hrun; simp at hrun
  | some m2 =>
    rw [hd] at hrun
    simp at hrun
    subst hrun
    rw [drdu_dget_frame u b m2 k hk hd]
    exact hb

/-- C10, concrete instance: merging `a: 1` into the base `z: 9, w: 5` leaves
`z` bound to `9`. -/
theorem c10_frame_witness :
    dget [("z", Val.int 9), ("w", Val.int 5), ("a", Val.int 1)] "z" =
      some (Val.int 9) :=
  c10_frame [("z", Val.int 9), ("w", Val.int 5)] [("a", Val.int 1)] "z"
    (Val.int 9) [("z", Val.int 9), ("w", Val.int 5), ("a", Val.int 1)]
    rfl rfl (by simp [recursive_dict_update, dget, dset, dgetD])

end ConfigFinderSpec
